import Mathlib

/-!
# Verification of the WaveBlocksND NSD inner-product core

Shallow embedding of `WaveBlocksND/NSDInhomogeneous.py` (class
`NSDInhomogeneous`): the parameter mixing (`mix_parameters`), the bilinear
form construction (`build_bilinear`), the in-place Schur-factor elimination
and path construction inside `do_nsd`, and the control flow of the public
entry points `perform_quadrature` and `perform_build_matrix`.

Modelling conventions:
* numpy complex floating point arithmetic is idealised as exact arithmetic
  on the computable field `CC` of complex numbers with rational components;
  the IEEE NaN/Inf sanitation step (`nan_to_num`) is modelled separately on
  an explicit tagged value type `FpVal`.
* numpy column vectors of shape `(D, 1)` become `Matrix (Fin D) (Fin 1) CC`;
  `dot` is matrix multiplication, `conjugate` is the entrywise star map,
  `transpose` is `ᵀ`.
* library routines without a closed algebraic definition
  (`scipy.linalg.schur`, `scipy.linalg.sqrtm`, complex `sqrt`/`exp`, the
  float power used in the normalization prefactor and the float constant
  `pi`) are passed in as explicit function arguments; `scipy.linalg.inv` is
  modelled by the adjugate formula `det⁻¹ • adjugate`, which agrees with the
  matrix inverse on invertible input.
-/

/-- Complex numbers with rational real and imaginary parts: the computable
carrier idealising numpy's complex floating point scalars. -/
structure CC where
  re : ℚ
  im : ℚ
deriving DecidableEq

namespace CC

theorem ext_iff {x y : CC} : x = y ↔ x.re = y.re ∧ x.im = y.im := by
  cases x; cases y; simp

theorem ext {x y : CC} (hre : x.re = y.re) (him : x.im = y.im) : x = y :=
  ext_iff.mpr ⟨hre, him⟩

instance : Zero CC := ⟨⟨0, 0⟩⟩
instance : One CC := ⟨⟨1, 0⟩⟩
instance : Add CC := ⟨fun x y => ⟨x.re + y.re, x.im + y.im⟩⟩
instance : Neg CC := ⟨fun x => ⟨-x.re, -x.im⟩⟩
instance : Mul CC := ⟨fun x y => ⟨x.re * y.re - x.im * y.im, x.re * y.im + x.im * y.re⟩⟩
instance : Inv CC :=
  ⟨fun x => ⟨x.re / (x.re ^ 2 + x.im ^ 2), -x.im / (x.re ^ 2 + x.im ^ 2)⟩⟩

/-- The imaginary unit. -/
def I : CC := ⟨0, 1⟩

@[simp] theorem zero_re : (0 : CC).re = 0 := rfl
@[simp] theorem zero_im : (0 : CC).im = 0 := rfl
@[simp] theorem one_re : (1 : CC).re = 1 := rfl
@[simp] theorem one_im : (1 : CC).im = 0 := rfl
@[simp] theorem add_re (x y : CC) : (x + y).re = x.re + y.re := rfl
@[simp] theorem add_im (x y : CC) : (x + y).im = x.im + y.im := rfl
@[simp] theorem neg_re (x : CC) : (-x).re = -x.re := rfl
@[simp] theorem neg_im (x : CC) : (-x).im = -x.im := rfl
@[simp] theorem mul_re (x y : CC) : (x * y).re = x.re * y.re - x.im * y.im := rfl
@[simp] theorem mul_im (x y : CC) : (x * y).im = x.re * y.im + x.im * y.re := rfl
@[simp] theorem inv_re (x : CC) : (x⁻¹).re = x.re / (x.re ^ 2 + x.im ^ 2) := rfl
@[simp] theorem inv_im (x : CC) : (x⁻¹).im = -x.im / (x.re ^ 2 + x.im ^ 2) := rfl
@[simp] theorem I_re : I.re = 0 := rfl
@[simp] theorem I_im : I.im = 1 := rfl

theorem sq_add_sq_ne_zero {x : CC} (hx : x ≠ 0) : x.re ^ 2 + x.im ^ 2 ≠ 0 := by
  intro h
  apply hx
  have hre : x.re = 0 := by nlinarith [sq_nonneg x.re, sq_nonneg x.im]
  have him : x.im = 0 := by nlinarith [sq_nonneg x.re, sq_nonneg x.im]
  exact ext hre him

instance instField : Field CC :=
  Field.ofMinimalAxioms CC
    (by intros; apply ext <;> simp <;> ring)
    (by intros; apply ext <;> simp)
    (by intros; apply ext <;> simp)
    (by intros; apply ext <;> simp <;> ring)
    (by intros; apply ext <;> simp <;> ring)
    (by intros; apply ext <;> simp)
    (by
      intro a ha
      have hd := sq_add_sq_ne_zero ha
      apply ext <;> simp <;> field_simp <;> ring)
    (by apply ext <;> simp)
    (by intros; apply ext <;> simp <;> ring)
    ⟨0, 1, by decide⟩

instance : StarRing CC where
  star := fun x => ⟨x.re, -x.im⟩
  star_involutive := by intro x; apply ext <;> simp
  star_mul := by intros; apply ext <;> simp <;> ring
  star_add := by intros; apply ext <;> simp <;> ring

@[simp] theorem star_re (x : CC) : (star x).re = x.re := rfl
@[simp] theorem star_im (x : CC) : (star x).im = -x.im := rfl

@[simp] theorem sub_re (x y : CC) : (x - y).re = x.re - y.re := by
  rw [sub_eq_add_neg, add_re, neg_re]; ring

@[simp] theorem sub_im (x y : CC) : (x - y).im = x.im - y.im := by
  rw [sub_eq_add_neg, add_im, neg_im]; ring

@[simp] theorem mk_zero_zero : (⟨0, 0⟩ : CC) = 0 := rfl

theorem natCast_re (n : ℕ) : (n : CC).re = n := by
  induction n with
  | zero => simp
  | succ k ih => rw [Nat.cast_succ, add_re, ih, one_re]; push_cast; ring

theorem natCast_im (n : ℕ) : (n : CC).im = 0 := by
  induction n with
  | zero => simp
  | succ k ih => rw [Nat.cast_succ, add_im, ih, one_im]; ring

@[simp] theorem ofNat_re (n : ℕ) [n.AtLeastTwo] :
    (no_index (OfNat.ofNat n) : CC).re = OfNat.ofNat n := by
  rw [← Nat.cast_ofNat, natCast_re, Nat.cast_ofNat]

@[simp] theorem ofNat_im (n : ℕ) [n.AtLeastTwo] :
    (no_index (OfNat.ofNat n) : CC).im = 0 := by
  rw [← Nat.cast_ofNat, natCast_im]

end CC

open Matrix

/-- `m × n` matrices over `CC`, the carrier for all numpy arrays of the core. -/
abbrev Mat (m n : ℕ) : Type := Matrix (Fin m) (Fin n) CC

/-- Entrywise complex conjugation, modelling `numpy.conjugate`. -/
def conjM {m n : ℕ} (M : Mat m n) : Mat m n := M.map star

/-- Entrywise imaginary part, re-embedded into `CC`, modelling `numpy.imag`
(the source keeps the resulting real array and feeds it to real `inv` and
`sqrtm`; we keep the carrier `CC` with real-valued entries). -/
def imagM {m n : ℕ} (M : Mat m n) : Mat m n := M.map (fun z => ⟨z.im, 0⟩)

/-- `scipy.linalg.inv`, via the adjugate formula. On invertible input this is
the matrix inverse; on singular input scipy raises instead, a case every
claim below excludes by hypothesis. -/
def matInv {n : ℕ} (M : Mat n n) : Mat n n := (M.det)⁻¹ • M.adjugate

/-- A Hagedorn parameter set `Π = (q, p, Q, P)` as unpacked by
`mix_parameters` and `build_bilinear` (`Pibra[:4]`, `Piket[:4]`). -/
structure Pi4 (D : ℕ) where
  q : Mat D 1
  p : Mat D 1
  Q : Mat D D
  P : Mat D D

/-- The full parameter set `Π = (q, p, Q, P, S)` returned by
`get_parameters`; `S` is the global phase `Pi[4]`. -/
structure Pi5 (D : ℕ) extends Pi4 D where
  S : CC

namespace NSDInhomogeneous

/-- `build_bilinear` (NSDInhomogeneous.py lines 143–163), translated
statement by statement from the source:

    Gr = dot(Pr, inv(Qr)); Gc = dot(Pc, inv(Qc))
    A  = 0.5 * (Gc - conjugate(transpose(Gr)))
    b  = conjugate(0.5 * (dot(Gr, qr) - dot(conjugate(transpose(Gc)), qc)
                          + dot(transpose(Gr), conjugate(qr))
                          - dot(conjugate(Gc), conjugate(qc)))
                   + (pc - conjugate(pr)))
    c  = 0.5 * (dot(conjugate(transpose(qc)), dot(Gc, qc))
                - dot(conjugate(transpose(qr)), dot(conjugate(transpose(Gr)), qr)))
         + (dot(conjugate(transpose(qr)), pr) - dot(conjugate(transpose(pc)), qc))

The `1 × 1` array `c` is returned as its single entry. -/
def build_bilinear {D : ℕ} (Pibra Piket : Pi4 D) : Mat D D × Mat D 1 × CC :=
  let Gr : Mat D D := Pibra.P * matInv Pibra.Q
  let Gc : Mat D D := Piket.P * matInv Piket.Q
  let A : Mat D D := ((1 : CC)/2) • (Gc - conjM (Gr)ᵀ)
  let b : Mat D 1 :=
    conjM (((1 : CC)/2) • (Gr * Pibra.q - conjM (Gc)ᵀ * Piket.q
                           + (Gr)ᵀ * conjM Pibra.q - conjM Gc * conjM Piket.q)
           + (Piket.p - conjM Pibra.p))
  let c : CC :=
    (((1 : CC)/2) • (conjM (Piket.q)ᵀ * (Gc * Piket.q)
                     - conjM (Pibra.q)ᵀ * (conjM (Gr)ᵀ * Pibra.q))
     + (conjM (Pibra.q)ᵀ * Pibra.p - conjM (Piket.p)ᵀ * Piket.q)) 0 0
  (A, b, c)

/-- The bilinear form as written in the specification (section 4.2), with the
spec's exact formula shapes: `A = 0.5·(Γ_c − conj(Γ_r)ᵗ)`,
`b = conj(0.5·(Γ_r·q_r − conj(Γ_c)ᵗ·q_c + Γ_rᵗ·conj(q_r) − conj(Γ_c)·conj(q_c)) + (p_c − conj(p_r)))`,
`c = 0.5·(conj(q_c)ᵗ·Γ_c·q_c − conj(q_r)ᵗ·conj(Γ_r)ᵗ·q_r) + (conj(q_r)ᵗ·p_r − conj(p_c)ᵗ·q_c)`. -/
def build_bilinear_specform {D : ℕ} (Pibra Piket : Pi4 D) : Mat D D × Mat D 1 × CC :=
  let Gr : Mat D D := Pibra.P * matInv Pibra.Q
  let Gc : Mat D D := Piket.P * matInv Piket.Q
  let A : Mat D D := ((1 : CC)/2) • (Gc - (conjM Gr)ᵀ)
  let b : Mat D 1 :=
    conjM (((1 : CC)/2) • (Gr * Pibra.q - (conjM Gc)ᵀ * Piket.q
                           + (Gr)ᵀ * conjM Pibra.q - conjM Gc * conjM Piket.q)
           + (Piket.p - conjM Pibra.p))
  let c : CC :=
    (((1 : CC)/2) • ((conjM Piket.q)ᵀ * (Gc * Piket.q)
                     - (conjM Pibra.q)ᵀ * ((conjM Gr)ᵀ * Pibra.q))
     + ((conjM Pibra.q)ᵀ * Pibra.p - (conjM Piket.p)ᵀ * Piket.q)) 0 0
  (A, b, c)

end NSDInhomogeneous

/-- `conjugate(transpose(M))` and `transpose(conjugate(M))` agree. -/
theorem conjM_transpose {m n : ℕ} (M : Mat m n) : conjM (M)ᵀ = (conjM M)ᵀ := by
  ext i j
  simp [conjM]

/-- **C1.** For every pair of parameter sets `Πbra = (q_r, p_r, Q_r, P_r)` and
`Πket = (q_c, p_c, Q_c, P_c)` with `Q_r` and `Q_c` invertible, `build_bilinear`
returns exactly `A = 0.5·(Γ_c − conj(Γ_r)ᵗ)`,
`b = conj(0.5·(Γ_r·q_r − conj(Γ_c)ᵗ·q_c + Γ_rᵗ·conj(q_r) − conj(Γ_c)·conj(q_c)) + (p_c − conj(p_r)))`
and
`c = 0.5·(conj(q_c)ᵗ·Γ_c·q_c − conj(q_r)ᵗ·conj(Γ_r)ᵗ·q_r) + (conj(q_r)ᵗ·p_r − conj(p_c)ᵗ·q_c)`,
with `Γ_r = P_r·Q_r⁻¹`, `Γ_c = P_c·Q_c⁻¹`, and these exact sign conventions. -/
theorem build_bilinear_eq_specform {D : ℕ} (Pibra Piket : Pi4 D)
    (hQr : (Pibra.Q).det ≠ 0) (hQc : (Piket.Q).det ≠ 0) :
    NSDInhomogeneous.build_bilinear Pibra Piket
      = NSDInhomogeneous.build_bilinear_specform Pibra Piket := by
  unfold NSDInhomogeneous.build_bilinear NSDInhomogeneous.build_bilinear_specform
  simp only [conjM_transpose]

/-- A concrete `D = 1` parameter set used by several witnesses:
`q = 0`, `p = 0`, `Q = [[1]]`, `P = [[i]]`. -/
def piWitness : Pi4 1 := ⟨0, 0, 1, Matrix.of (fun _ _ => CC.I)⟩

/-- Witness for C1: the hypotheses of `build_bilinear_eq_specform` hold and
its conclusion evaluates at the concrete parameter set `piWitness`. -/
theorem build_bilinear_eq_specform_witness :
    (piWitness.Q).det ≠ 0 ∧
      NSDInhomogeneous.build_bilinear piWitness piWitness
        = NSDInhomogeneous.build_bilinear_specform piWitness piWitness := by
  have hdet : (piWitness.Q).det ≠ 0 := by
    simp [piWitness, Matrix.det_fin_one]
  exact ⟨hdet, build_bilinear_eq_specform piWitness piWitness hdet hdet⟩

namespace NSDInhomogeneous

/-- `mix_parameters` (NSDInhomogeneous.py lines 103–129), translated
statement by statement from the source:

    Gr = dot(Pr, inv(Qr)); Gc = dot(Pc, inv(Qc))
    r  = imag(Gc - conjugate(Gr.T))
    s  = imag(dot(Gc, qc) - dot(conjugate(Gr.T), qr))
    q0 = dot(inv(r), s)
    Q0 = 0.5 * r
    Qs = inv(sqrtm(Q0))
    return (q0, Qs)

`sqrtm` abstracts the library routine `scipy.linalg.sqrtm`, the principal
matrix square root; it is the only operation of the function without a
closed algebraic form. Note there is no error branch in the source: the
function is a straight-line computation. -/
def mix_parameters {D : ℕ} (sqrtm : Mat D D → Mat D D) (Pibra Piket : Pi4 D) :
    Mat D 1 × Mat D D :=
  let Gr : Mat D D := Pibra.P * matInv Pibra.Q
  let Gc : Mat D D := Piket.P * matInv Piket.Q
  let r : Mat D D := imagM (Gc - conjM (Gr)ᵀ)
  let s : Mat D 1 := imagM (Gc * Piket.q - conjM (Gr)ᵀ * Pibra.q)
  let q0 : Mat D 1 := matInv r * s
  let Q0 : Mat D D := ((1 : CC)/2) • r
  let Qs : Mat D D := matInv (sqrtm Q0)
  (q0, Qs)

/-- The mixed parameters as written in the specification (section 4.1):
`r_mat = Im(Γ_c − conj(Γ_r)ᵗ)`, `s_vec = Im(Γ_c·q_c − conj(Γ_r)ᵗ·q_r)`,
`q0 = r_mat⁻¹·s_vec`, `Q0 = 0.5·r_mat`, `Qs = (sqrtm Q0)⁻¹` with `sqrtm`
the principal matrix square root. -/
def mix_parameters_specform {D : ℕ} (sqrtm : Mat D D → Mat D D)
    (Pibra Piket : Pi4 D) : Mat D 1 × Mat D D :=
  let Gr : Mat D D := Pibra.P * matInv Pibra.Q
  let Gc : Mat D D := Piket.P * matInv Piket.Q
  let rmat : Mat D D := imagM (Gc - (conjM Gr)ᵀ)
  let svec : Mat D 1 := imagM (Gc * Piket.q - (conjM Gr)ᵀ * Pibra.q)
  (matInv rmat * svec, matInv (sqrtm (((1 : CC)/2) • rmat)))

/-- The matrix `Q0 = 0.5·r_mat` computed inside `mix_parameters`, exposed so
that the positive-definiteness side condition of the spec can be stated. -/
def mixQ0 {D : ℕ} (Pibra Piket : Pi4 D) : Mat D D :=
  let Gr : Mat D D := Pibra.P * matInv Pibra.Q
  let Gc : Mat D D := Piket.P * matInv Piket.Q
  ((1 : CC)/2) • imagM (Gc - conjM (Gr)ᵀ)

end NSDInhomogeneous

/-- Positive definiteness of a `CC` matrix, mirroring `Matrix.PosDef`:
Hermitian, and `xᴴ·M·x` has positive real part for every nonzero `x`. -/
def IsPosDefCC {n : ℕ} (M : Matrix (Fin n) (Fin n) CC) : Prop :=
  M.IsHermitian ∧ ∀ x : Fin n → CC, x ≠ 0 → 0 < (Matrix.dotProduct (star x) (M.mulVec x)).re

/-- **C5.** For every pair of parameter sets with `Q_r`, `Q_c` and `r_mat`
invertible, `mix_parameters` returns exactly the pair `(q0, Qs)` with
`q0 = r_mat⁻¹·s_vec` and `Qs` the inverse of the principal matrix square
root of `Q0 = 0.5·r_mat`, where `r_mat = Im(Γ_c − conj(Γ_r)ᵗ)` and
`s_vec = Im(Γ_c·q_c − conj(Γ_r)ᵗ·q_r)` (square root taken by the library
routine `sqrtm`, universally quantified here). -/
theorem mix_parameters_eq_specform {D : ℕ} (sqrtm : Mat D D → Mat D D)
    (Pibra Piket : Pi4 D)
    (hQr : (Pibra.Q).det ≠ 0) (hQc : (Piket.Q).det ≠ 0)
    (hr : (imagM ((Piket.P * matInv Piket.Q)
            - conjM ((Pibra.P * matInv Pibra.Q))ᵀ)).det ≠ 0) :
    NSDInhomogeneous.mix_parameters sqrtm Pibra Piket
      = NSDInhomogeneous.mix_parameters_specform sqrtm Pibra Piket := by
  unfold NSDInhomogeneous.mix_parameters NSDInhomogeneous.mix_parameters_specform
  simp only [conjM_transpose]

/-- Witness for C5: the hypotheses of `mix_parameters_eq_specform` hold and
its conclusion evaluates at the concrete parameter set `piWitness` (there
`Γ_r = Γ_c = i`, so `r_mat = Im(i − i·conj) = [[2]]` is invertible). -/
theorem mix_parameters_eq_specform_witness :
    (piWitness.Q).det ≠ 0 ∧
      (imagM ((piWitness.P * matInv piWitness.Q)
        - conjM ((piWitness.P * matInv piWitness.Q))ᵀ)).det ≠ 0 ∧
      NSDInhomogeneous.mix_parameters id piWitness piWitness
        = NSDInhomogeneous.mix_parameters_specform id piWitness piWitness := by
  have hr : (imagM ((piWitness.P * matInv piWitness.Q)
      - conjM ((piWitness.P * matInv piWitness.Q))ᵀ)).det ≠ 0 := by
    simp [piWitness, matInv, imagM, conjM, Matrix.det_fin_one,
      Matrix.adjugate_fin_one, Matrix.mul_apply, Fin.sum_univ_one, CC.ext_iff]
  refine ⟨?_, hr, ?_⟩
  · simp [piWitness, Matrix.det_fin_one]
  · exact mix_parameters_eq_specform id piWitness piWitness
      (by simp [piWitness, Matrix.det_fin_one]) (by simp [piWitness, Matrix.det_fin_one]) hr

/-- A concrete `D = 1` parameter set whose mixed `Q0` is negative definite:
`q = 0`, `p = 0`, `Q = [[1]]`, `P = [[−i]]`, so `Γ = −i`, `r_mat = [[−2]]`
and `Q0 = [[−1]]`. -/
def piNegIm : Pi4 1 := ⟨0, 0, 1, Matrix.of (fun _ _ => -CC.I)⟩

/-- **C6 (amended).** `mix_parameters` performs no positive-definiteness
check and has no failure branch: for every parameter pair with `Q_r`, `Q_c`
and `r_mat` invertible whose `Q0 = 0.5·r_mat` is *not* positive-definite,
it still returns the straight-line value
`(r_mat⁻¹·s_vec, inv(sqrtm(Q0)))` instead of failing with a
`BranchAmbiguity` error. -/
theorem mix_parameters_total_not_posdef {D : ℕ} (sqrtm : Mat D D → Mat D D)
    (Pibra Piket : Pi4 D)
    (hQr : (Pibra.Q).det ≠ 0) (hQc : (Piket.Q).det ≠ 0)
    (hr : (imagM ((Piket.P * matInv Piket.Q)
            - conjM ((Pibra.P * matInv Pibra.Q))ᵀ)).det ≠ 0)
    (hnpd : ¬ IsPosDefCC (NSDInhomogeneous.mixQ0 Pibra Piket)) :
    NSDInhomogeneous.mix_parameters sqrtm Pibra Piket
      = (matInv (imagM ((Piket.P * matInv Piket.Q)
            - conjM ((Pibra.P * matInv Pibra.Q))ᵀ))
           * imagM ((Piket.P * matInv Piket.Q) * Piket.q
               - conjM ((Pibra.P * matInv Pibra.Q))ᵀ * Pibra.q),
         matInv (sqrtm (NSDInhomogeneous.mixQ0 Pibra Piket))) := by
  unfold NSDInhomogeneous.mix_parameters NSDInhomogeneous.mixQ0
  rfl

/-- The mixed `Q0` of `piNegIm` is `[[−1]]`, not positive-definite, while
`Q_r = Q_c = [[1]]` and `r_mat = [[−2]]` are invertible; `mix_parameters`
nevertheless returns a value (shown with the library square root
instantiated to the identity function). This refutes claim C6 as stated:
there is no `BranchAmbiguity` failure. -/
theorem mix_parameters_no_branch_counterexample :
    (piNegIm.Q).det ≠ 0 ∧
    (imagM ((piNegIm.P * matInv piNegIm.Q)
       - conjM ((piNegIm.P * matInv piNegIm.Q))ᵀ)).det ≠ 0 ∧
    ¬ IsPosDefCC (NSDInhomogeneous.mixQ0 piNegIm piNegIm) ∧
    NSDInhomogeneous.mix_parameters id piNegIm piNegIm
      = (0, matInv (NSDInhomogeneous.mixQ0 piNegIm piNegIm)) := by
  have hr : (imagM ((piNegIm.P * matInv piNegIm.Q)
      - conjM ((piNegIm.P * matInv piNegIm.Q))ᵀ)).det ≠ 0 := by
    simp [piNegIm, matInv, imagM, conjM, Matrix.det_fin_one,
      Matrix.adjugate_fin_one, Matrix.mul_apply, Fin.sum_univ_one, CC.ext_iff]
  refine ⟨by simp [piNegIm, Matrix.det_fin_one], hr, ?_, ?_⟩
  · rintro ⟨-, hpos⟩
    have hx : (fun _ => 1 : Fin 1 → CC) ≠ 0 := by
      intro h
      have h0 := congrFun h 0
      exact one_ne_zero h0
    have := hpos (fun _ => 1) hx
    simp [NSDInhomogeneous.mixQ0, piNegIm, matInv, imagM, conjM,
      Matrix.dotProduct, Matrix.mulVec, Matrix.det_fin_one,
      Matrix.adjugate_fin_one, Matrix.mul_apply, Fin.sum_univ_one] at this
    norm_num at this
  · unfold NSDInhomogeneous.mix_parameters NSDInhomogeneous.mixQ0
    simp only [id_eq, Prod.mk.injEq]
    constructor
    · have hs : imagM ((piNegIm.P * matInv piNegIm.Q) * piNegIm.q
          - conjM ((piNegIm.P * matInv piNegIm.Q))ᵀ * piNegIm.q) = 0 := by
        ext i j
        simp [piNegIm, imagM, conjM, Matrix.mul_apply, Fin.sum_univ_one]
      rw [hs, mul_zero]
    · trivial

/-- Witness for C6 (amended): the hypotheses of
`mix_parameters_total_not_posdef` hold at `piNegIm` (with the library square
root instantiated to the identity function) and the theorem applies. -/
theorem mix_parameters_total_not_posdef_witness :
    ¬ IsPosDefCC (NSDInhomogeneous.mixQ0 piNegIm piNegIm) ∧
    NSDInhomogeneous.mix_parameters id piNegIm piNegIm
      = (matInv (imagM ((piNegIm.P * matInv piNegIm.Q)
            - conjM ((piNegIm.P * matInv piNegIm.Q))ᵀ))
           * imagM ((piNegIm.P * matInv piNegIm.Q) * piNegIm.q
               - conjM ((piNegIm.P * matInv piNegIm.Q))ᵀ * piNegIm.q),
         matInv (id (NSDInhomogeneous.mixQ0 piNegIm piNegIm))) := by
  have hnpd : ¬ IsPosDefCC (NSDInhomogeneous.mixQ0 piNegIm piNegIm) := by
    rintro ⟨-, hpos⟩
    have hx : (fun _ => 1 : Fin 1 → CC) ≠ 0 := by
      intro h
      have h0 := congrFun h 0
      exact one_ne_zero h0
    have := hpos (fun _ => 1) hx
    simp [NSDInhomogeneous.mixQ0, piNegIm, matInv, imagM, conjM,
      Matrix.dotProduct, Matrix.mulVec, Matrix.det_fin_one,
      Matrix.adjugate_fin_one, Matrix.mul_apply, Fin.sum_univ_one] at this
    norm_num at this
  refine ⟨hnpd, ?_⟩
  exact mix_parameters_total_not_posdef id piNegIm piNegIm
    (by simp [piNegIm, Matrix.det_fin_one])
    (by simp [piNegIm, Matrix.det_fin_one])
    (by simp [piNegIm, matInv, imagM, conjM, Matrix.det_fin_one,
          Matrix.adjugate_fin_one, Matrix.mul_apply, Fin.sum_univ_one, CC.ext_iff])
    hnpd

@[simp] theorem conjM_zero {m n : ℕ} : conjM (0 : Mat m n) = 0 := by
  ext i j
  simp [conjM]

/-- `conjugate(transpose(M))` is the Mathlib conjugate transpose. -/
theorem conjM_transpose_eq {m n : ℕ} (M : Mat m n) : conjM (M)ᵀ = Mᴴ := rfl

theorem CC.star_half : star ((1 : CC)/2) = (1 : CC)/2 := by
  apply CC.ext <;> simp [div_eq_mul_inv]

/-- **C9 (amended).** For `D = 1` and every parameter set `Π` with
`Πbra == Πket` and zero momentum/position (`q = 0`, `p = 0`),
`build_bilinear(Π, Π)` returns a matrix `A` that is *skew*-Hermitian
(`Aᴴ = −A`; for genuine wavepacket parameters `Im Γ ≠ 0`, so `A` is not
Hermitian) and a vector `b` that equals zero. -/
theorem build_bilinear_diag_skew_hermitian (Q P : Mat 1 1) (hQ : Q.det ≠ 0) :
    ((NSDInhomogeneous.build_bilinear ⟨0, 0, Q, P⟩ ⟨0, 0, Q, P⟩).1)ᴴ
        = -(NSDInhomogeneous.build_bilinear ⟨0, 0, Q, P⟩ ⟨0, 0, Q, P⟩).1
      ∧ (NSDInhomogeneous.build_bilinear ⟨0, 0, Q, P⟩ ⟨0, 0, Q, P⟩).2.1 = 0 := by
  constructor
  · show (((1 : CC)/2) • (P * matInv Q - conjM ((P * matInv Q))ᵀ))ᴴ
      = -(((1 : CC)/2) • (P * matInv Q - conjM ((P * matInv Q))ᵀ))
    rw [conjM_transpose_eq, Matrix.conjTranspose_smul, CC.star_half,
      Matrix.conjTranspose_sub, Matrix.conjTranspose_conjTranspose]
    rw [← smul_neg, neg_sub]
  · show conjM (((1 : CC)/2) • ((P * matInv Q) * (0 : Mat 1 1)
        - conjM ((P * matInv Q))ᵀ * (0 : Mat 1 1)
        + (P * matInv Q)ᵀ * conjM (0 : Mat 1 1)
        - conjM (P * matInv Q) * conjM (0 : Mat 1 1))
        + ((0 : Mat 1 1) - conjM (0 : Mat 1 1))) = 0
    simp

/-- At the concrete parameter set `piWitness` (`q = 0`, `p = 0`, `Q = [[1]]`,
`P = [[i]]`, hence `Γ = i`), `build_bilinear(Π, Π)` yields `b = 0` but
`A = [[i]]`, which is **not** Hermitian. This refutes the Hermiticity part of
claim C9 as stated. -/
theorem build_bilinear_hermitian_counterexample :
    (piWitness.Q).det ≠ 0 ∧
    (NSDInhomogeneous.build_bilinear piWitness piWitness).2.1 = 0 ∧
    ¬ ((NSDInhomogeneous.build_bilinear piWitness piWitness).1.IsHermitian) := by
  refine ⟨by simp [piWitness, Matrix.det_fin_one], ?_, ?_⟩
  · show conjM (((1 : CC)/2) • ((piWitness.P * matInv piWitness.Q) * (0 : Mat 1 1)
        - conjM ((piWitness.P * matInv piWitness.Q))ᵀ * (0 : Mat 1 1)
        + (piWitness.P * matInv piWitness.Q)ᵀ * conjM (0 : Mat 1 1)
        - conjM (piWitness.P * matInv piWitness.Q) * conjM (0 : Mat 1 1))
        + ((0 : Mat 1 1) - conjM (0 : Mat 1 1))) = 0
    simp
  · intro h
    have hA : (NSDInhomogeneous.build_bilinear piWitness piWitness).1 0 0 = CC.I := by
      show (((1 : CC)/2) • ((piWitness.P * matInv piWitness.Q)
        - conjM ((piWitness.P * matInv piWitness.Q))ᵀ)) 0 0 = CC.I
      simp [piWitness, matInv, conjM, Matrix.det_fin_one, Matrix.adjugate_fin_one,
        Matrix.mul_apply, Fin.sum_univ_one, Matrix.smul_apply]
      apply CC.ext <;> simp [div_eq_mul_inv] <;> ring
    have h00 := congrFun (congrFun h 0) 0
    rw [Matrix.conjTranspose_apply, hA] at h00
    have him := congrArg CC.im h00
    simp at him
    norm_num at him

/-- Witness for C9 (amended): the hypothesis of
`build_bilinear_diag_skew_hermitian` holds and the theorem applies at the
concrete parameters `Q = [[1]]`, `P = [[i]]`. -/
theorem build_bilinear_diag_skew_hermitian_witness :
    ((1 : Mat 1 1)).det ≠ 0 ∧
    (((NSDInhomogeneous.build_bilinear
        (⟨0, 0, 1, Matrix.of (fun _ _ => CC.I)⟩ : Pi4 1)
        (⟨0, 0, 1, Matrix.of (fun _ _ => CC.I)⟩ : Pi4 1)).1)ᴴ
      = -(NSDInhomogeneous.build_bilinear
        (⟨0, 0, 1, Matrix.of (fun _ _ => CC.I)⟩ : Pi4 1)
        (⟨0, 0, 1, Matrix.of (fun _ _ => CC.I)⟩ : Pi4 1)).1
      ∧ (NSDInhomogeneous.build_bilinear
        (⟨0, 0, 1, Matrix.of (fun _ _ => CC.I)⟩ : Pi4 1)
        (⟨0, 0, 1, Matrix.of (fun _ _ => CC.I)⟩ : Pi4 1)).2.1 = 0) := by
  have hdet : ((1 : Mat 1 1)).det ≠ 0 := by simp [Matrix.det_fin_one]
  exact ⟨hdet, build_bilinear_diag_skew_hermitian 1 (Matrix.of (fun _ _ => CC.I)) hdet⟩

/-- In-place assignment `T[r, c] = v` of one entry of a numpy array,
modelled as a pointwise functional update. The array `T` of shape `D × D`
is modelled as a total function on `ℕ × ℕ`; all loop accesses stay inside
`[0, D) × [0, D)`. -/
def setE (T : ℕ → ℕ → CC) (r c : ℕ) (v : CC) : ℕ → ℕ → CC :=
  fun i j => if i = r ∧ j = c then v else T i j

namespace NSDInhomogeneous

/-- The diagonal update loop of pivot `i` in `do_nsd`
(NSDInhomogeneous.py lines 212–214):

    for j in range(i, D):
        T[j, j] = T[j, j] - T[i - 1, j]**2 / (4.0 * T[i - 1, i - 1])
-/
def elimDiag (D i : ℕ) (T : ℕ → ℕ → CC) : ℕ → ℕ → CC :=
  (List.range' i (D - i)).foldl
    (fun S j => setE S j j (S j j - (S (i-1) j)^2 / (4 * S (i-1) (i-1)))) T

/-- The off-diagonal update loop of pivot `i` in `do_nsd`
(NSDInhomogeneous.py lines 216–219):

    for rowi in range(i, D):
        for coli in range(rowi + 1, D):
            T[rowi, coli] = T[rowi, coli] - T[i - 1, rowi] * T[i - 1, coli] / (2 * T[i - 1, i - 1])
-/
def elimOff (D i : ℕ) (T : ℕ → ℕ → CC) : ℕ → ℕ → CC :=
  (List.range' i (D - i)).foldl
    (fun S rowi => (List.range' (rowi+1) (D - (rowi+1))).foldl
       (fun S2 coli => setE S2 rowi coli
         (S2 rowi coli - S2 (i-1) rowi * S2 (i-1) coli / (2 * S2 (i-1) (i-1)))) S) T

/-- One full pivot iteration of the oscillator update loop: the diagonal
loop followed by the off-diagonal loops, both in place. -/
def elimStep (D i : ℕ) (T : ℕ → ℕ → CC) : ℕ → ℕ → CC :=
  elimOff D i (elimDiag D i T)

/-- The oscillator update loop of `do_nsd` (NSDInhomogeneous.py lines
207–219), ignoring the non-fatal zero-pivot diagnostic (treated by
`eliminateLog`):

    for i in range(1, D): <pivot iteration i>
-/
def eliminate (D : ℕ) (T : ℕ → ℕ → CC) : ℕ → ℕ → CC :=
  (List.range' 1 (D - 1)).foldl (fun S i => elimStep D i S) T

/-- One pivot iteration as described by the specification (section 4.3):
simultaneously, every later diagonal entry `T[j,j]` (`j ≥ i`) becomes
`T[j,j] − T[i−1,j]²/(4·T[i−1,i−1])` and every later strictly-upper entry
`T[row,col]` (`col > row ≥ i`) becomes
`T[row,col] − T[i−1,row]·T[i−1,col]/(2·T[i−1,i−1])`; nothing else changes. -/
def specStep (D i : ℕ) (T : ℕ → ℕ → CC) : ℕ → ℕ → CC := fun r c =>
  if r = c ∧ i ≤ r ∧ r < D then T r c - (T (i-1) r)^2 / (4 * T (i-1) (i-1))
  else if i ≤ r ∧ r < c ∧ c < D then T r c - T (i-1) r * T (i-1) c / (2 * T (i-1) (i-1))
  else T r c

/-- The elimination as described by the specification: the simultaneous
pivot step iterated for `i = 1..D−1`. -/
def specEliminate (D : ℕ) (T : ℕ → ℕ → CC) : ℕ → ℕ → CC :=
  (List.range' 1 (D - 1)).foldl (fun S i => specStep D i S) T

/-- Characterization of the sequential diagonal loop: it only writes the
diagonal positions listed in `l`, each from the untouched row `i − 1`. -/
theorem diagFold_apply (i : ℕ) (hi : 1 ≤ i) (l : List ℕ)
    (hl : ∀ j ∈ l, i ≤ j) (hnd : l.Nodup) (T : ℕ → ℕ → CC) (r c : ℕ) :
    (l.foldl (fun S j => setE S j j (S j j - (S (i-1) j)^2 / (4 * S (i-1) (i-1)))) T) r c
      = if r = c ∧ r ∈ l then T r c - (T (i-1) r)^2 / (4 * T (i-1) (i-1)) else T r c := by
  induction l generalizing T with
  | nil => simp
  | cons j tl ih =>
    have hj : i ≤ j := hl j (by simp)
    have htl : ∀ x ∈ tl, i ≤ x := fun x hx => hl x (by simp [hx])
    have hndtl : tl.Nodup := (List.nodup_cons.mp hnd).2
    have hjtl : j ∉ tl := (List.nodup_cons.mp hnd).1
    rw [List.foldl_cons, ih htl hndtl]
    have hrow : ∀ x, setE T j j (T j j - (T (i-1) j)^2 / (4 * T (i-1) (i-1))) (i-1) x
        = T (i-1) x := by
      intro x
      simp only [setE]
      rw [if_neg]
      rintro ⟨h1, -⟩
      omega
    rw [hrow, hrow]
    by_cases hrc : r = c
    · subst hrc
      by_cases hmem : r ∈ tl
      · have hrj : r ≠ j := fun h => hjtl (h ▸ hmem)
        rw [if_pos ⟨rfl, hmem⟩, if_pos ⟨rfl, by simp [hmem]⟩]
        simp only [setE]
        rw [if_neg (by rintro ⟨h1, -⟩; exact hrj h1)]
      · rw [if_neg (by rintro ⟨-, h2⟩; exact hmem h2)]
        by_cases hrj : r = j
        · subst hrj
          rw [if_pos ⟨rfl, by simp⟩]
          simp [setE]
        · rw [if_neg (by rintro ⟨-, h2⟩; simp at h2; tauto)]
          simp only [setE]
          rw [if_neg (by rintro ⟨h1, -⟩; exact hrj h1)]
    · rw [if_neg (by rintro ⟨h1, -⟩; exact hrc h1),
        if_neg (by rintro ⟨h1, -⟩; exact hrc h1)]
      simp only [setE]
      rw [if_neg (by rintro ⟨h1, h2⟩; exact hrc (h1.trans h2.symm))]

end NSDInhomogeneous

namespace NSDInhomogeneous

/-- Characterization of the inner off-diagonal loop for a fixed `rowi`: it
only writes the positions `(rowi, coli)` with `coli ∈ l`, each from the
untouched row `i − 1`. -/
theorem offInnerFold_apply (i rowi : ℕ) (hi : 1 ≤ i) (hri : i ≤ rowi)
    (l : List ℕ) (hl : ∀ x ∈ l, rowi < x) (hnd : l.Nodup)
    (T : ℕ → ℕ → CC) (r c : ℕ) :
    (l.foldl (fun S2 coli => setE S2 rowi coli
        (S2 rowi coli - S2 (i-1) rowi * S2 (i-1) coli / (2 * S2 (i-1) (i-1)))) T) r c
      = if r = rowi ∧ c ∈ l then T r c - T (i-1) r * T (i-1) c / (2 * T (i-1) (i-1))
        else T r c := by
  induction l generalizing T with
  | nil => simp
  | cons coli tl ih =>
    have hcoli : rowi < coli := hl coli (by simp)
    have htl : ∀ x ∈ tl, rowi < x := fun x hx => hl x (by simp [hx])
    have hndtl : tl.Nodup := (List.nodup_cons.mp hnd).2
    have hctl : coli ∉ tl := (List.nodup_cons.mp hnd).1
    rw [List.foldl_cons, ih htl hndtl]
    have hrow : ∀ x, setE T rowi coli
        (T rowi coli - T (i-1) rowi * T (i-1) coli / (2 * T (i-1) (i-1))) (i-1) x
        = T (i-1) x := by
      intro x
      simp only [setE]
      rw [if_neg]
      rintro ⟨h1, -⟩
      omega
    rw [hrow, hrow, hrow]
    by_cases hr : r = rowi
    · subst hr
      by_cases hmem : c ∈ tl
      · have hcc : c ≠ coli := fun h => hctl (h ▸ hmem)
        rw [if_pos ⟨rfl, hmem⟩, if_pos ⟨rfl, by simp [hmem]⟩]
        simp only [setE]
        rw [if_neg (by rintro ⟨-, h2⟩; exact hcc h2)]
      · rw [if_neg (by rintro ⟨-, h2⟩; exact hmem h2)]
        by_cases hcc : c = coli
        · subst hcc
          rw [if_pos ⟨rfl, by simp⟩]
          simp [setE]
        · rw [if_neg (by rintro ⟨-, h2⟩; simp at h2; tauto)]
          simp only [setE]
          rw [if_neg (by rintro ⟨-, h2⟩; exact hcc h2)]
    · rw [if_neg (by rintro ⟨h1, -⟩; exact hr h1),
        if_neg (by rintro ⟨h1, -⟩; exact hr h1)]
      simp only [setE]
      rw [if_neg (by rintro ⟨h1, -⟩; exact hr h1)]

/-- Characterization of the full off-diagonal double loop over the row list
`l`: it only writes strictly-upper positions `(r, c)` with `r ∈ l`,
`r < c < D`, each from the untouched row `i − 1`. -/
theorem offFold_apply (D i : ℕ) (hi : 1 ≤ i) (l : List ℕ)
    (hl : ∀ x ∈ l, i ≤ x) (hnd : l.Nodup) (T : ℕ → ℕ → CC) (r c : ℕ) :
    (l.foldl (fun S rowi => (List.range' (rowi+1) (D - (rowi+1))).foldl
        (fun S2 coli => setE S2 rowi coli
          (S2 rowi coli - S2 (i-1) rowi * S2 (i-1) coli / (2 * S2 (i-1) (i-1)))) S) T) r c
      = if r ∈ l ∧ r < c ∧ c < D then T r c - T (i-1) r * T (i-1) c / (2 * T (i-1) (i-1))
        else T r c := by
  induction l generalizing T with
  | nil => simp
  | cons rowi tl ih =>
    have hrowi : i ≤ rowi := hl rowi (by simp)
    have htl : ∀ x ∈ tl, i ≤ x := fun x hx => hl x (by simp [hx])
    have hndtl : tl.Nodup := (List.nodup_cons.mp hnd).2
    have hrtl : rowi ∉ tl := (List.nodup_cons.mp hnd).1
    rw [List.foldl_cons, ih htl hndtl]
    have hmemr : ∀ x, x ∈ List.range' (rowi+1) (D - (rowi+1)) ↔ rowi < x ∧ x < D := by
      intro x
      rw [List.mem_range'_1]
      omega
    have hinner := offInnerFold_apply i rowi hi hrowi
      (List.range' (rowi+1) (D - (rowi+1)))
      (fun x hx => ((hmemr x).mp hx).1) (List.nodup_range' _ _) T
    have hrow : ∀ x, (List.range' (rowi+1) (D - (rowi+1))).foldl
        (fun S2 coli => setE S2 rowi coli
          (S2 rowi coli - S2 (i-1) rowi * S2 (i-1) coli / (2 * S2 (i-1) (i-1)))) T (i-1) x
        = T (i-1) x := by
      intro x
      rw [hinner (i-1) x, if_neg]
      rintro ⟨h1, -⟩
      omega
    rw [hrow, hrow, hrow]
    by_cases hmem : r ∈ tl ∧ r < c ∧ c < D
    · have hrr : r ≠ rowi := fun h => hrtl (h ▸ hmem.1)
      rw [if_pos hmem, if_pos ⟨by simp [hmem.1], hmem.2.1, hmem.2.2⟩]
      rw [hinner r c, if_neg (by rintro ⟨h1, -⟩; exact hrr h1)]
    · rw [if_neg hmem, hinner r c]
      by_cases hcase : r = rowi ∧ rowi < c ∧ c < D
      · obtain ⟨hr, hc, hcD⟩ := hcase
        subst hr
        rw [if_pos ⟨rfl, (hmemr c).mpr ⟨hc, hcD⟩⟩,
          if_pos ⟨by simp, hc, hcD⟩]
      · rw [if_neg (by
          rintro ⟨h1, h2⟩
          exact hcase ⟨h1, ((hmemr c).mp h2).1, ((hmemr c).mp h2).2⟩)]
        rw [if_neg (by
          rintro ⟨h1, h2, h3⟩
          simp at h1
          rcases h1 with h1 | h1
          · exact hcase ⟨h1, h1 ▸ h2, h3⟩
          · exact hmem ⟨h1, h2, h3⟩)]

end NSDInhomogeneous

namespace NSDInhomogeneous

/-- Pointwise value of the diagonal loop of pivot `i`. -/
theorem elimDiag_apply (D i : ℕ) (hi : 1 ≤ i) (T : ℕ → ℕ → CC) (r c : ℕ) :
    elimDiag D i T r c
      = if r = c ∧ i ≤ r ∧ r < D then T r c - (T (i-1) r)^2 / (4 * T (i-1) (i-1))
        else T r c := by
  rw [elimDiag, diagFold_apply i hi (List.range' i (D - i))
    (fun j hj => (List.mem_range'_1.mp hj).1) (List.nodup_range' _ _) T r c]
  have hiff : (r = c ∧ r ∈ List.range' i (D - i)) ↔ (r = c ∧ i ≤ r ∧ r < D) := by
    rw [List.mem_range'_1]
    omega
  rw [if_congr hiff rfl rfl]

/-- Pointwise value of the off-diagonal loops of pivot `i`. -/
theorem elimOff_apply (D i : ℕ) (hi : 1 ≤ i) (T : ℕ → ℕ → CC) (r c : ℕ) :
    elimOff D i T r c
      = if i ≤ r ∧ r < c ∧ c < D then T r c - T (i-1) r * T (i-1) c / (2 * T (i-1) (i-1))
        else T r c := by
  rw [elimOff, offFold_apply D i hi (List.range' i (D - i))
    (fun j hj => (List.mem_range'_1.mp hj).1) (List.nodup_range' _ _) T r c]
  have hiff : (r ∈ List.range' i (D - i) ∧ r < c ∧ c < D) ↔ (i ≤ r ∧ r < c ∧ c < D) := by
    rw [List.mem_range'_1]
    omega
  rw [if_congr hiff rfl rfl]

/-- The sequential in-place pivot iteration computes exactly the
simultaneous pivot step of the specification. -/
theorem elimStep_eq_specStep (D i : ℕ) (hi : 1 ≤ i) (T : ℕ → ℕ → CC) :
    elimStep D i T = specStep D i T := by
  funext r c
  rw [elimStep, elimOff_apply D i hi, specStep]
  by_cases hoff : i ≤ r ∧ r < c ∧ c < D
  · rw [if_pos hoff,
      elimDiag_apply D i hi T r c,
      elimDiag_apply D i hi T (i-1) r,
      elimDiag_apply D i hi T (i-1) c,
      elimDiag_apply D i hi T (i-1) (i-1),
      if_neg (by rintro ⟨h1, -⟩; omega),
      if_neg (by rintro ⟨h1, h2, -⟩; omega),
      if_neg (by rintro ⟨h1, h2, -⟩; omega),
      if_neg (by rintro ⟨-, h2, -⟩; omega),
      if_neg (by rintro ⟨h1, -⟩; omega),
      if_pos hoff]
  · rw [if_neg hoff, elimDiag_apply D i hi T r c]
    by_cases hdiag : r = c ∧ i ≤ r ∧ r < D
    · rw [if_pos hdiag, if_pos hdiag]
    · rw [if_neg hdiag, if_neg hdiag, if_neg hoff]

/-- The full elimination loop equals the iterated simultaneous step. -/
theorem eliminate_eq_specEliminate_aux (D : ℕ) (T : ℕ → ℕ → CC) :
    eliminate D T = specEliminate D T := by
  rw [eliminate, specEliminate]
  apply List.foldl_ext
  intro S i hi
  exact elimStep_eq_specStep D i (List.mem_range'_1.mp hi).1 S

end NSDInhomogeneous

/-- **C2.** For every `D × D` upper-triangular matrix `T` with nonzero
leading diagonal entries, the in-place elimination loop of `do_nsd`
transforms `T` by, for each pivot index `i = 1..D−1`, replacing every later
diagonal entry `T[j,j]` (`j ≥ i`) with `T[j,j] − T[i−1,j]²/(4·T[i−1,i−1])`
and every later strictly-upper entry `T[row,col]` (`col > row ≥ i`) with
`T[row,col] − T[i−1,row]·T[i−1,col]/(2·T[i−1,i−1])`, making no other
modification (`specEliminate` is that exact description, iterated over the
pivots). -/
theorem eliminate_eq_specEliminate (D : ℕ) (T : ℕ → ℕ → CC)
    (hut : ∀ r c, r < D → c < D → c < r → T r c = 0)
    (hdz : ∀ d, d < D → T d d ≠ 0) :
    NSDInhomogeneous.eliminate D T = NSDInhomogeneous.specEliminate D T :=
  NSDInhomogeneous.eliminate_eq_specEliminate_aux D T

/-- A concrete `2 × 2` upper-triangular array with unit diagonal. -/
def elimWitnessT : ℕ → ℕ → CC := fun r c => if r ≤ c then 1 else 0

/-- Witness for C2: the hypotheses of `eliminate_eq_specEliminate` hold for
the concrete upper-triangular `elimWitnessT` at `D = 2`, and the theorem
applies. -/
theorem eliminate_eq_specEliminate_witness :
    (∀ r c, r < 2 → c < 2 → c < r → elimWitnessT r c = 0) ∧
    (∀ d, d < 2 → elimWitnessT d d ≠ 0) ∧
    NSDInhomogeneous.eliminate 2 elimWitnessT
      = NSDInhomogeneous.specEliminate 2 elimWitnessT := by
  have hut : ∀ r c, r < 2 → c < 2 → c < r → elimWitnessT r c = 0 := by
    intro r c _ _ hlt
    rw [elimWitnessT, if_neg (by omega)]
  have hdz : ∀ d, d < 2 → elimWitnessT d d ≠ 0 := by
    intro d _
    rw [elimWitnessT, if_pos (le_refl d)]
    exact one_ne_zero
  exact ⟨hut, hdz, eliminate_eq_specEliminate 2 elimWitnessT hut hdz⟩

/-- Non-fatal diagnostics emitted during `do_nsd` (the source prints
`Warning: 'update_oscillator' encountered a RESIDUE situation!`). -/
inductive NSDDiag where
  | degeneratePivot
deriving DecidableEq

namespace NSDInhomogeneous

/-- The oscillator update loop of `do_nsd` (NSDInhomogeneous.py lines
207–219) together with its diagnostic channel: before the updates of pivot
`i`, if the current pivot entry `T[i−1,i−1]` equals zero, a
`degeneratePivot` diagnostic is appended (the `print` at line 210); the
updates then proceed unconditionally. -/
def eliminateLog (D : ℕ) (T : ℕ → ℕ → CC) : (ℕ → ℕ → CC) × List NSDDiag :=
  (List.range' 1 (D - 1)).foldl
    (fun S i =>
      (elimStep D i S.1,
       if S.1 (i-1) (i-1) = 0 then S.2 ++ [NSDDiag.degeneratePivot] else S.2))
    (T, [])

/-- The sequence of pivot values `T[i−1,i−1]` read at the head of each
pivot iteration (ghost trace of the loop). -/
def pivotList (D : ℕ) (T : ℕ → ℕ → CC) : List CC :=
  ((List.range' 1 (D - 1)).foldl
    (fun (S : (ℕ → ℕ → CC) × List CC) i => (elimStep D i S.1, S.2 ++ [S.1 (i-1) (i-1)]))
    (T, [])).2

theorem logFold_fst (D : ℕ) (l : List ℕ) :
    ∀ (T : ℕ → ℕ → CC) (aw : List NSDDiag),
    (l.foldl (fun S i =>
        (elimStep D i S.1,
         if S.1 (i-1) (i-1) = 0 then S.2 ++ [NSDDiag.degeneratePivot] else S.2))
      (T, aw)).1
      = l.foldl (fun S i => elimStep D i S) T := by
  induction l with
  | nil => intro T aw; rfl
  | cons i tl ih =>
    intro T aw
    rw [List.foldl_cons, List.foldl_cons]
    exact ih _ _

theorem warn_of_pivot (D : ℕ) (l : List ℕ) :
    ∀ (T : ℕ → ℕ → CC) (aw : List NSDDiag) (ap : List CC),
    (0 ∈ ap → NSDDiag.degeneratePivot ∈ aw) →
    (0 : CC) ∈ (l.foldl (fun (S : (ℕ → ℕ → CC) × List CC) i =>
        (elimStep D i S.1, S.2 ++ [S.1 (i-1) (i-1)])) (T, ap)).2 →
    NSDDiag.degeneratePivot ∈ (l.foldl (fun S i =>
        (elimStep D i S.1,
         if S.1 (i-1) (i-1) = 0 then S.2 ++ [NSDDiag.degeneratePivot] else S.2))
      (T, aw)).2 := by
  induction l with
  | nil =>
    intro T aw ap hinv h0
    exact hinv h0
  | cons i tl ih =>
    intro T aw ap hinv h0
    rw [List.foldl_cons] at h0 ⊢
    refine ih _ _ _ ?_ h0
    intro hmem
    rw [List.mem_append] at hmem
    rcases hmem with hmem | hmem
    · by_cases hz : T (i-1) (i-1) = 0
      · rw [if_pos hz]
        exact List.mem_append_left _ (hinv hmem)
      · rw [if_neg hz]
        exact hinv hmem
    · simp only [List.mem_singleton] at hmem
      rw [if_pos hmem.symm]
      simp

end NSDInhomogeneous

/-- **C7.** For every Schur factor `T` for which some elimination step reads
a pivot `T[i−1,i−1]` that is exactly zero, the evaluation neither raises nor
aborts: it emits a `degeneratePivot` diagnostic and continues, computing
exactly the same elimination result (`eliminate`) and returning it. -/
theorem eliminateLog_degenerate_pivot (D : ℕ) (T : ℕ → ℕ → CC)
    (hz : (0 : CC) ∈ NSDInhomogeneous.pivotList D T) :
    NSDDiag.degeneratePivot ∈ (NSDInhomogeneous.eliminateLog D T).2
      ∧ (NSDInhomogeneous.eliminateLog D T).1 = NSDInhomogeneous.eliminate D T := by
  constructor
  · exact NSDInhomogeneous.warn_of_pivot D (List.range' 1 (D - 1)) T [] []
      (by simp) hz
  · exact NSDInhomogeneous.logFold_fst D (List.range' 1 (D - 1)) T []

/-- A concrete `2 × 2` array whose first Schur pivot `T[0,0]` is zero. -/
def pivotWitnessT : ℕ → ℕ → CC := fun r c => if r = 0 ∧ c = 0 then 0 else 1

/-- Witness for C7: the concrete `pivotWitnessT` has a zero pivot at the
first elimination step, and `eliminateLog_degenerate_pivot` applies. -/
theorem eliminateLog_degenerate_pivot_witness :
    (0 : CC) ∈ NSDInhomogeneous.pivotList 2 pivotWitnessT ∧
    NSDDiag.degeneratePivot ∈ (NSDInhomogeneous.eliminateLog 2 pivotWitnessT).2 ∧
    (NSDInhomogeneous.eliminateLog 2 pivotWitnessT).1
      = NSDInhomogeneous.eliminate 2 pivotWitnessT := by
  have hz : (0 : CC) ∈ NSDInhomogeneous.pivotList 2 pivotWitnessT := by
    simp [NSDInhomogeneous.pivotList, pivotWitnessT]
  have h := eliminateLog_degenerate_pivot 2 pivotWitnessT hz
  exact ⟨hz, h.1, h.2⟩

/-- One IEEE-double component as classified by `numpy.nan_to_num`: an exact
finite value, NaN, or a signed infinity. -/
inductive FpVal where
  | fin (x : ℚ)
  | nan
  | posInf
  | negInf
deriving DecidableEq

/-- Whether a value is neither NaN nor infinite. -/
def FpVal.isFinite : FpVal → Bool
  | .fin _ => true
  | _ => false

/-- The largest finite float64, `numpy.finfo(numpy.float64).max`
`= 1.7976931348623157e308`. -/
def maxFloat : ℚ := 17976931348623157 * 10 ^ 292

/-- `numpy.nan_to_num` on one real component, with numpy's default
replacements: NaN becomes `0.0`, positive infinity becomes the largest
finite float, negative infinity its negative. Finite values pass through. -/
def nan_to_num : FpVal → FpVal
  | .fin x => .fin x
  | .nan => .fin 0
  | .posInf => .fin maxFloat
  | .negInf => .fin (-maxFloat)

/-- A complex IEEE value as a pair of real components; `numpy.nan_to_num`
acts on the real and imaginary components separately. -/
abbrev FpC : Type := FpVal × FpVal

/-- `numpy.nan_to_num` on a complex value. -/
def nan_to_numC (z : FpC) : FpC := (nan_to_num z.1, nan_to_num z.2)

namespace NSDInhomogeneous

/-- The final sanitation step of `perform_quadrature`
(NSDInhomogeneous.py line 304): `I = array(nan_to_num(I))` applied to the
contracted scalar, whatever IEEE values the preceding arithmetic produced. -/
def perform_quadrature_sanitize (I : FpC) : FpC := nan_to_numC I

/-- The final sanitation step of `perform_build_matrix`
(NSDInhomogeneous.py line 322): `M = array(nan_to_num(M))` applied
entrywise to the matrix returned by `do_nsd`. -/
def perform_build_matrix_sanitize {k l : ℕ} (M : Matrix (Fin k) (Fin l) FpC) :
    Matrix (Fin k) (Fin l) FpC := M.map nan_to_numC

end NSDInhomogeneous

/-- **C3 (amended).** For every result of the intermediate computation with
NaN or Inf entries, the final results of `perform_quadrature` and
`perform_build_matrix` contain no NaN and no Inf entry; NaN components are
replaced by `0`, while `±Inf` components are replaced by the largest-magnitude
finite floats `±1.7976931348623157e308` (numpy's `nan_to_num` defaults), not
by `0`. -/
theorem sanitation_policy {k l : ℕ} (M : Matrix (Fin k) (Fin l) FpC) (I : FpC) :
    (∀ i j, ((NSDInhomogeneous.perform_build_matrix_sanitize M) i j).1.isFinite = true
       ∧ ((NSDInhomogeneous.perform_build_matrix_sanitize M) i j).2.isFinite = true)
    ∧ ((NSDInhomogeneous.perform_quadrature_sanitize I).1.isFinite = true
       ∧ (NSDInhomogeneous.perform_quadrature_sanitize I).2.isFinite = true)
    ∧ (∀ v : FpVal, (v = .nan → nan_to_num v = .fin 0)
       ∧ (v = .posInf → nan_to_num v = .fin maxFloat)
       ∧ (v = .negInf → nan_to_num v = .fin (-maxFloat))) := by
  refine ⟨?_, ?_, ?_⟩
  · intro i j
    constructor <;>
      · show (nan_to_num _).isFinite = true
        cases hM : (M i j).1 <;> cases hM2 : (M i j).2 <;> rfl
  · constructor <;>
      · show (nan_to_num _).isFinite = true
        cases hI : I.1 <;> cases hI2 : I.2 <;> rfl
  · intro v
    refine ⟨?_, ?_, ?_⟩ <;> (rintro rfl; rfl)

/-- A `1 × 1` matrix whose single entry has a `+Inf` real component. -/
def infWitnessM : Matrix (Fin 1) (Fin 1) FpC :=
  Matrix.of (fun _ _ => (FpVal.posInf, FpVal.fin 0))

/-- At a result matrix with a `+Inf` entry, the sanitized entry is the
largest finite float, which is nonzero: the entry is *not* replaced by `0`.
This refutes the "every such entry is replaced by 0" part of claim C3 as
stated (the no-NaN/no-Inf part does hold). -/
theorem sanitation_counterexample :
    (infWitnessM 0 0).1 = FpVal.posInf
    ∧ ((NSDInhomogeneous.perform_build_matrix_sanitize infWitnessM) 0 0).1
        = FpVal.fin maxFloat
    ∧ maxFloat ≠ 0
    ∧ ((NSDInhomogeneous.perform_build_matrix_sanitize infWitnessM) 0 0)
        ≠ (FpVal.fin 0, FpVal.fin 0)
    ∧ ((NSDInhomogeneous.perform_build_matrix_sanitize infWitnessM) 0 0).1.isFinite
        = true := by
  have hmf : maxFloat ≠ 0 := by rw [maxFloat]; positivity
  refine ⟨rfl, rfl, hmf, ?_, rfl⟩
  intro h
  have h1 : FpVal.fin maxFloat = FpVal.fin 0 := congrArg Prod.fst h
  exact hmf (FpVal.fin.inj h1)

/-- Witness for C3 (amended): `sanitation_policy` applied at the concrete
matrix `infWitnessM` and scalar `(NaN, 0)`, with the implications
discharged at `+Inf`. -/
theorem sanitation_policy_witness :
    ((NSDInhomogeneous.perform_build_matrix_sanitize infWitnessM) 0 0).1.isFinite = true
    ∧ nan_to_num FpVal.posInf = FpVal.fin maxFloat
    ∧ nan_to_num FpVal.nan = FpVal.fin 0 := by
  refine ⟨((sanitation_policy infWitnessM (FpVal.nan, FpVal.fin 0)).1 0 0).1, ?_, ?_⟩
  · exact ((sanitation_policy infWitnessM (FpVal.nan, FpVal.fin 0)).2.2 FpVal.posInf).2.1 rfl
  · exact ((sanitation_policy infWitnessM (FpVal.nan, FpVal.fin 0)).2.2 FpVal.nan).1 rfl

/-- Failure modes of the callee `do_nsd` and of the library routines it
invokes (`scipy.linalg.inv` raising `LinAlgError` on singular input, and any
other numerical library failure). A dimension mismatch is not among them:
`do_nsd` performs no dimension check. -/
inductive NsdErr where
  | singularMatrix
  | numericalError
deriving DecidableEq

/-- Failure modes of the public entry points: the up-front dimension guard,
or a propagated callee failure. -/
inductive QuadErr where
  | dimensionMismatch
  | nsdFailure (e : NsdErr)
deriving DecidableEq

namespace NSDInhomogeneous

/-- Control flow of `perform_quadrature` (NSDInhomogeneous.py lines
286–305):

    if not self._QR.get_dimension() == self._packet.get_dimension():
        raise ValueError("Quadrature dimension does not match the wavepacket dimension")
    M = self.do_nsd(row, col)
    I = squeeze(dot(transpose(conjugate(cbra)), dot(M, cket)))

The callee `do_nsd` is passed as a thunk returning its matrix or a library
failure; the guard fires before the thunk is forced. The `nan_to_num` of
line 304 is the identity on exact values and is modelled separately on
`FpVal` (`perform_quadrature_sanitize`). -/
def perform_quadrature (qrDim packetDim : ℕ) {kr kc : ℕ}
    (nsd : Unit → Except NsdErr (Matrix (Fin kr) (Fin kc) CC))
    (cbra : Fin kr → CC) (cket : Fin kc → CC) : Except QuadErr CC :=
  if ¬ (qrDim = packetDim) then Except.error QuadErr.dimensionMismatch
  else
    match nsd () with
    | .error e => .error (.nsdFailure e)
    | .ok M => .ok (∑ i, ∑ j, star (cbra i) * M i j * cket j)

/-- Control flow of `perform_build_matrix` (NSDInhomogeneous.py lines
308–323): the same guard, then the raw `do_nsd` matrix (`nan_to_num`
modelled separately on `FpVal`, `perform_build_matrix_sanitize`). -/
def perform_build_matrix (qrDim packetDim : ℕ) {kr kc : ℕ}
    (nsd : Unit → Except NsdErr (Matrix (Fin kr) (Fin kc) CC)) :
    Except QuadErr (Matrix (Fin kr) (Fin kc) CC) :=
  if ¬ (qrDim = packetDim) then Except.error QuadErr.dimensionMismatch
  else
    match nsd () with
    | .error e => .error (.nsdFailure e)
    | .ok M => .ok M

end NSDInhomogeneous

/-- **C4.** Both public operations fail with `dimensionMismatch` if and only
if the quadrature rule's dimension differs from the wavepacket's dimension;
the check precedes any computation, so on failure the result is the same
error for every possible callee computation and coefficient data (no
evaluation work is performed, no state consulted or changed). -/
theorem perform_dimension_check (qrDim packetDim : ℕ) {kr kc : ℕ}
    (nsd : Unit → Except NsdErr (Matrix (Fin kr) (Fin kc) CC))
    (cbra : Fin kr → CC) (cket : Fin kc → CC) :
    ((NSDInhomogeneous.perform_quadrature qrDim packetDim nsd cbra cket
        = Except.error QuadErr.dimensionMismatch) ↔ qrDim ≠ packetDim)
    ∧ ((NSDInhomogeneous.perform_build_matrix qrDim packetDim nsd
        = Except.error QuadErr.dimensionMismatch) ↔ qrDim ≠ packetDim)
    ∧ (qrDim ≠ packetDim →
        ∀ (nsd' : Unit → Except NsdErr (Matrix (Fin kr) (Fin kc) CC))
          (cbra' : Fin kr → CC) (cket' : Fin kc → CC),
          NSDInhomogeneous.perform_quadrature qrDim packetDim nsd' cbra' cket'
              = Except.error QuadErr.dimensionMismatch
            ∧ NSDInhomogeneous.perform_build_matrix qrDim packetDim nsd'
              = Except.error QuadErr.dimensionMismatch) := by
  unfold NSDInhomogeneous.perform_quadrature NSDInhomogeneous.perform_build_matrix
  by_cases h : qrDim = packetDim
  · rw [if_neg (by simpa using h), if_neg (by simpa using h)]
    refine ⟨?_, ?_, by tauto⟩ <;>
      · cases hE : nsd () <;> simp [hE, h]
  · rw [if_pos h, if_pos h]
    refine ⟨by tauto, by tauto, ?_⟩
    intro _ nsd' cbra' cket'
    rw [if_pos h, if_pos h]
    exact ⟨rfl, rfl⟩

/-- Witness for C4: at the concrete dimensions `1 ≠ 2` the guard fires for
both operations regardless of the callee, by `perform_dimension_check`. -/
theorem perform_dimension_check_witness :
    (1 : ℕ) ≠ 2
    ∧ NSDInhomogeneous.perform_quadrature 1 2
        (fun _ => Except.ok (0 : Matrix (Fin 1) (Fin 1) CC))
        (fun _ => 1) (fun _ => 1)
        = Except.error QuadErr.dimensionMismatch
    ∧ NSDInhomogeneous.perform_build_matrix 1 2
        (fun _ => Except.ok (0 : Matrix (Fin 1) (Fin 1) CC))
        = Except.error QuadErr.dimensionMismatch := by
  have h12 : (1 : ℕ) ≠ 2 := by decide
  have h := (perform_dimension_check 1 2
    (fun _ => Except.ok (0 : Matrix (Fin 1) (Fin 1) CC))
    (fun _ => 1) (fun _ => 1)).2.2 h12
    (fun _ => Except.ok (0 : Matrix (Fin 1) (Fin 1) CC)) (fun _ => 1) (fun _ => 1)
  exact ⟨h12, h.1, h.2⟩

/-- View a `D × D` matrix as the `ℕ`-indexed array the elimination loop
operates on (out-of-range reads never occur in the loops). -/
def toFun {D : ℕ} (M : Mat D D) : ℕ → ℕ → CC :=
  fun r c => if h : r < D ∧ c < D then M ⟨r, h.1⟩ ⟨c, h.2⟩ else 0

/-- Repackage the eliminated `ℕ`-indexed array as a `D × D` matrix. -/
def ofFun (D : ℕ) (f : ℕ → ℕ → CC) : Mat D D := Matrix.of fun i j => f i j

namespace NSDInhomogeneous

/-- The coupling matrix `Tu = 0.5 * triu(T, 1) / Dk`
(NSDInhomogeneous.py line 236): numpy's row-broadcast division by the
diagonal column `Dk[i] = T[i,i]`. -/
def pathTu {D : ℕ} (T : Mat D D) : Mat D D :=
  Matrix.of fun i j => if (i : ℕ) < (j : ℕ) then ((1 : CC)/2) * T i j / T i i else 0

/-- The path construction of `do_nsd` (NSDInhomogeneous.py lines 237–239):

    paths = (sqrt(1.0j / Dk) * tk).astype(complexfloating)
    for i in reversed(range(D)):
        paths[i, :] = paths[i, :] - dot(Tu[i, :], paths)

`csqrt` abstracts the library square root `scipy.sqrt`. -/
def pathsOf {D Nn : ℕ} (csqrt : CC → CC) (T : Mat D D) (tk : Mat D Nn) : Mat D Nn :=
  (List.finRange D).reverse.foldl
    (fun P i => Matrix.of fun r n =>
      if r = i then P r n - ∑ d, pathTu T i d * P d n else P r n)
    (Matrix.of fun d n => csqrt (CC.I / T d d) * tk d n)

end NSDInhomogeneous

/-- **C8.** For dimension `D = 1` and every node vector `τ = node/√w`, with
`Dk` the single diagonal entry of `T′`, the constructed path equals the
closed form `√(i/Dk)·τ` exactly: the coupling matrix `Tu` is zero, so the
subtraction step is a no-op. -/
theorem pathsOf_dim_one (Nn : ℕ) (csqrt : CC → CC) (T : Mat 1 1) (tk : Mat 1 Nn) :
    NSDInhomogeneous.pathTu T = 0
      ∧ NSDInhomogeneous.pathsOf csqrt T tk
          = Matrix.of (fun d n => csqrt (CC.I / T d d) * tk d n) := by
  have hTu : NSDInhomogeneous.pathTu T = 0 := by
    ext i j
    fin_cases i
    fin_cases j
    simp [NSDInhomogeneous.pathTu]
  refine ⟨hTu, ?_⟩
  rw [NSDInhomogeneous.pathsOf]
  show (Matrix.of fun r n =>
      if r = 0 then _ - ∑ d, NSDInhomogeneous.pathTu T 0 d * _ else _) = _
  ext r n
  fin_cases r
  simp [hTu, Fin.sum_univ_one]

/-- The wavepacket, quadrature-rule, operator, and library collaborators
consumed by `do_nsd`, fixed by `initialize_packet`, `initialize_operator`
and `prepare` before any evaluation. The basis shapes have `Kr+1` (bra) and
`Kc+1` (ket) basis functions, so a first basis element always exists. The
fields `csqrt`, `cexp`, `schur`, `sqrtm`, `piv` and `rpow` abstract the
library routines `scipy.sqrt`, `scipy.exp`, `scipy.linalg.schur` (complex
output), `scipy.linalg.sqrtm`, the constant `scipy.pi` and the float power
operator `**`. -/
structure NSDEnv (D Nn Kr Kc : ℕ) where
  eps : CC
  nComp : ℕ
  paramsBra : ℕ → Pi5 D
  paramsKet : ℕ → Pi5 D
  nodes : Mat D Nn
  weights : Fin Nn → CC
  basisBra : ℕ → Mat D Nn → Matrix (Fin (Kr+1)) (Fin Nn) CC
  basisKet : ℕ → Mat D Nn → Matrix (Fin (Kc+1)) (Fin Nn) CC
  op : Mat D Nn → Mat D 1 → ℕ × ℕ → Fin Nn → CC
  opAtOnce : Mat D Nn → Mat D 1 → ℕ → Fin Nn → CC
  evalAtOnce : Bool
  csqrt : CC → CC
  cexp : CC → CC
  schur : Mat D D → Mat D D × Mat D D
  sqrtm : Mat D D → Mat D D
  piv : CC
  rpow : CC → CC → CC

namespace NSDInhomogeneous

/-- `do_nsd` (NSDInhomogeneous.py lines 183–283), translated statement by
statement; see the structure fields of `NSDEnv` for the collaborator and
library abstractions. -/
def do_nsd {D Nn Kr Kc : ℕ} (env : NSDEnv D Nn Kr Kc) (row col : ℕ) :
    Matrix (Fin (Kr+1)) (Fin (Kc+1)) CC :=
  let eps := env.eps
  let Pibra := env.paramsBra row
  let Piket := env.paramsKet col
  let Pimix := mix_parameters env.sqrtm Pibra.toPi4 Piket.toPi4
  let Abc := build_bilinear Pibra.toPi4 Piket.toPi4
  let A := Abc.1
  let b := Abc.2.1
  let c := Abc.2.2
  let TU := env.schur A
  let U := conjM (TU.2)ᵀ
  let T := ofFun D (eliminate D (toFun TU.1))
  let X := matInv (A + (A)ᵀ)
  let ctilde := c - ((1 : CC)/2) * (((b)ᵀ * (X * b)) 0 0)
  let w := 1 / eps^2
  let prefactor := env.cexp (CC.I * w * ctilde)
  let tk : Mat D Nn := Matrix.of fun d n => env.nodes d n / env.csqrt w
  let paths := pathsOf env.csqrt T tk
  let pdp := ∏ d : Fin D, env.csqrt (CC.I / T d d)
  let pathst : Mat D Nn := Matrix.of fun d n => (conjM (U)ᵀ * paths) d n - (X * b) d 0
  let fr := env.rpow (env.piv * eps^2) (-((1 : CC)/4) * ((D : ℕ) : CC))
    * (1 / env.csqrt (Pibra.Q).det)
  let fc := env.rpow (env.piv * eps^2) (-((1 : CC)/4) * ((D : ℕ) : CC))
    * (1 / env.csqrt (Piket.Q).det)
  let normfactor := star fr * fc
  let phase := env.cexp (CC.I / eps^2 * (Piket.S - star Pibra.S))
  let basisrRaw := env.basisBra row (conjM pathst)
  let basisr : Matrix (Fin (Kr+1)) (Fin Nn) CC :=
    Matrix.of fun i k => basisrRaw i k / basisrRaw 0 k
  let basiscRaw := env.basisKet col pathst
  let basisc : Matrix (Fin (Kc+1)) (Fin Nn) CC :=
    Matrix.of fun j k => basiscRaw j k / basiscRaw 0 k
  let opath : Fin Nn → CC :=
    if env.evalAtOnce then env.opAtOnce pathst Pimix.1 (row * env.nComp + col)
    else env.op pathst Pimix.1 (row, col)
  let quadrand : Fin Nn → CC := fun k => opath k * pdp * env.weights k
  let M : Matrix (Fin (Kr+1)) (Fin (Kc+1)) CC :=
    Matrix.of fun i j => ∑ k, quadrand k * star (basisr i k) * basisc j k
  (phase * normfactor * prefactor / (env.csqrt w)^D) • M

/-- The default operator installed by `initialize_operator` when called with
`operator = None` (NSDInhomogeneous.py line 92):

    lambda nodes, dummy, entry=None:
        ones((1, nodes.shape[1])) if entry[0] == entry[1] else zeros((1, nodes.shape[1]))
-/
def defaultOperator (D Nn : ℕ) : Mat D Nn → Mat D 1 → ℕ × ℕ → Fin Nn → CC :=
  fun _nodes _dummy entry =>
    if entry.1 = entry.2 then (fun _ => 1) else (fun _ => 0)

end NSDInhomogeneous

/-- **C10.** The default (`None`) operator of `initialize_operator` returns,
for every node matrix and every entry `(r, c)`, a row of ones when `r = c`
and a row of zeros when `r ≠ c`; consequently the matrix returned by
`do_nsd` for any off-diagonal component pair `row ≠ col` is identically
zero. -/
theorem do_nsd_default_op_offdiag_zero {D Nn Kr Kc : ℕ} (env : NSDEnv D Nn Kr Kc)
    (hop : env.op = NSDInhomogeneous.defaultOperator D Nn)
    (hat : env.evalAtOnce = false) :
    (∀ (nodes : Mat D Nn) (dummy : Mat D 1) (r c : ℕ),
        (r = c → NSDInhomogeneous.defaultOperator D Nn nodes dummy (r, c) = fun _ => 1)
        ∧ (r ≠ c → NSDInhomogeneous.defaultOperator D Nn nodes dummy (r, c) = fun _ => 0))
      ∧ (∀ row col : ℕ, row ≠ col → NSDInhomogeneous.do_nsd env row col = 0) := by
  constructor
  · intro nodes dummy r c
    constructor
    · intro hrc
      simp [NSDInhomogeneous.defaultOperator, hrc]
    · intro hrc
      simp [NSDInhomogeneous.defaultOperator, hrc]
  · intro row col hrc
    ext i j
    simp only [NSDInhomogeneous.do_nsd, hat, hop, Bool.false_eq_true, if_false,
      NSDInhomogeneous.defaultOperator, hrc, Matrix.smul_apply, Matrix.of_apply,
      Matrix.zero_apply, smul_eq_mul]
    simp [hrc]

/-- A concrete environment for the C10 witness: `D = Nn = 1`, singleton
basis shapes, identity-like library stand-ins, and the default operator
with the entrywise calling convention. Fields in declaration order:
eps, nComp, paramsBra, paramsKet, nodes, weights, basisBra, basisKet,
op, opAtOnce, evalAtOnce, csqrt, cexp, schur, sqrtm, piv, rpow. -/
def envWitness : NSDEnv 1 1 0 0 :=
  ⟨1, 2,
   fun _ => ⟨⟨0, 0, 1, 1⟩, 0⟩,
   fun _ => ⟨⟨0, 0, 1, 1⟩, 0⟩,
   0, fun _ => 1,
   fun _ _ => Matrix.of fun _ _ => 1,
   fun _ _ => Matrix.of fun _ _ => 1,
   NSDInhomogeneous.defaultOperator 1 1,
   fun _ _ _ _ => 0,
   false,
   id, id,
   fun M => (M, 1),
   id,
   3,
   fun a _ => a⟩

/-- Witness for C10: the hypotheses of `do_nsd_default_op_offdiag_zero`
hold for the concrete environment `envWitness`; the default operator
returns the ones row at the diagonal entry `(0, 0)` and the zeros row at
the off-diagonal entry `(0, 1)`, where `do_nsd` returns the zero matrix. -/
theorem do_nsd_default_op_offdiag_zero_witness :
    envWitness.op = NSDInhomogeneous.defaultOperator 1 1
    ∧ envWitness.evalAtOnce = false
    ∧ NSDInhomogeneous.defaultOperator 1 1 0 0 (0, 0) = (fun _ => 1)
    ∧ NSDInhomogeneous.defaultOperator 1 1 0 0 (0, 1) = (fun _ => 0)
    ∧ (0 : ℕ) ≠ 1
    ∧ NSDInhomogeneous.do_nsd envWitness 0 1 = 0 := by
  have h := do_nsd_default_op_offdiag_zero envWitness rfl rfl
  exact ⟨rfl, rfl, (h.1 0 0 0 0).1 rfl, (h.1 0 0 0 1).2 (by decide), by decide,
    h.2 0 1 (by decide)⟩
